import Mathlib

/-
Verification of the moos crate (Memory-Optimized Objects and Strings).

Shallow embedding of the four core types:
  - CompactVec<T, N> (src/compact_vec.rs): an inline-optimized vector that
    stores up to N elements inline and spills to a heap Vec<T> beyond that.
  - InlineStr (src/inline_str.rs): a fixed-capacity inline UTF-8 string
    buffer of MAX_INLINE_STR_LEN bytes.
  - CowStr (src/cow_str.rs): a three-variant owned/borrowed/inlined string.
  - SmallString<N> (src/small_string.rs): a UTF-8 string over CompactVec<u8, N>.

Machine bytes are modelled as Nat (all concrete values are < 256), Rust
Vec<T> as a list of elements together with an explicit capacity, and the
uninitialized inline array [MaybeUninit<T>; N] as the list of its
initialized prefix (whose length is the len field of the struct).
-/

set_option autoImplicit false

namespace Moos

variable {T : Type} {N : Nat}

/-- Model of Rust alloc::vec::Vec<T>: element data plus capacity.
Vec::push appends; when data is at capacity it grows the allocation
(amortized doubling; the grown capacity is at least enough for the
new element, which is all the code under verification relies on). -/
@[ext]
structure RVec (T : Type) where
  data : List T
  cap  : Nat
  deriving DecidableEq

/-- Vec::with_capacity(c): empty data, capacity c. -/
def RVec.withCapacity (c : Nat) : RVec T := ⟨[], c⟩

/-- Vec::push: appends the value, growing capacity when full. -/
def RVec.push (r : RVec T) (v : T) : RVec T :=
  if r.data.length < r.cap then ⟨r.data ++ [v], r.cap⟩
  else ⟨r.data ++ [v], max (2 * r.cap) (r.data.length + 1)⟩

@[simp]
theorem RVec.push_data (r : RVec T) (v : T) :
    (r.push v).data = r.data ++ [v] := by
  unfold RVec.push; split <;> rfl

theorem RVec.push_cap_of_lt (r : RVec T) (v : T) (h : r.data.length < r.cap) :
    (r.push v).cap = r.cap := by
  unfold RVec.push; rw [if_pos h]

@[simp]
theorem RVec.foldl_push_data (l : List T) (r : RVec T) :
    (l.foldl RVec.push r).data = r.data ++ l := by
  induction l generalizing r with
  | nil => simp
  | cons a t ih => simp [List.foldl_cons, ih]

theorem RVec.foldl_push_cap (l : List T) (r : RVec T)
    (h : r.data.length + l.length ≤ r.cap) :
    (l.foldl RVec.push r).cap = r.cap := by
  induction l generalizing r with
  | nil => rfl
  | cons a t ih =>
    have hlt : r.data.length < r.cap := by
      simp only [List.length_cons] at h; omega
    rw [List.foldl_cons, ih]
    · exact RVec.push_cap_of_lt r a hlt
    · rw [RVec.push_cap_of_lt r a hlt]
      simp only [RVec.push_data, List.length_append, List.length_cons,
        List.length_nil] at h ⊢
      omega

/-- Model of CompactVec<T, N> (src/compact_vec.rs).
The inline field holds exactly the initialized prefix of the inline
[MaybeUninit<T>; N] array; its length is the len field of the struct.
heap is Some exactly when the container has spilled. -/
@[ext]
structure CompactVec (T : Type) (N : Nat) where
  inline : List T
  heap   : Option (RVec T)
  deriving DecidableEq

/-- CompactVec::new(): empty, inline. -/
def CompactVec.new : CompactVec T N := ⟨[], none⟩

/-- CompactVec::with_capacity(capacity): inline when capacity <= N,
otherwise an immediately spilled container with an empty heap Vec of the
requested capacity. -/
def CompactVec.with_capacity (capacity : Nat) : CompactVec T N :=
  if capacity ≤ N then CompactVec.new
  else ⟨[], some (RVec.withCapacity capacity)⟩

/-- CompactVec::len(). -/
def CompactVec.len (c : CompactVec T N) : Nat :=
  match c.heap with
  | some heap => heap.data.length
  | none => c.inline.length

/-- CompactVec::capacity(). -/
def CompactVec.capacity (c : CompactVec T N) : Nat :=
  match c.heap with
  | some heap => heap.cap
  | none => N

/-- CompactVec::is_inline(). -/
def CompactVec.is_inline (c : CompactVec T N) : Bool :=
  c.heap.isNone

/-- CompactVec::as_slice(). -/
def CompactVec.as_slice (c : CompactVec T N) : List T :=
  match c.heap with
  | some heap => heap.data
  | none => c.inline

/-- CompactVec::push(value): append to the heap Vec when spilled; write the
next inline slot when there is inline room; otherwise spill, moving the N
inline elements into a Vec::with_capacity(N * 2 + 1) and appending value. -/
def CompactVec.push (c : CompactVec T N) (value : T) : CompactVec T N :=
  match c.heap with
  | some heap => ⟨c.inline, some (heap.push value)⟩
  | none =>
    if c.inline.length < N then ⟨c.inline ++ [value], none⟩
    else
      ⟨[], some ((c.inline.foldl RVec.push
        (RVec.withCapacity (N * 2 + 1))).push value)⟩

/-- CompactVec::pop(): removes and returns the last element. When popping
from the heap leaves at most N elements, the remaining elements move back
into inline storage and the heap allocation is discarded. -/
def CompactVec.pop (c : CompactVec T N) : Option T × CompactVec T N :=
  match c.heap with
  | some heap =>
    match heap.data.getLast? with
    | some v =>
      if heap.data.dropLast.length ≤ N then
        (some v, ⟨heap.data.dropLast, none⟩)
      else
        (some v, ⟨c.inline, some ⟨heap.data.dropLast, heap.cap⟩⟩)
    | none => (none, c)
  | none =>
    match c.inline.getLast? with
    | some v => (some v, ⟨c.inline.dropLast, none⟩)
    | none => (none, c)

/-- CompactVec::extend(iter): pushes each element in order. -/
def CompactVec.extend (c : CompactVec T N) (l : List T) : CompactVec T N :=
  l.foldl CompactVec.push c

@[simp]
theorem CompactVec.push_as_slice (c : CompactVec T N) (v : T) :
    (c.push v).as_slice = c.as_slice ++ [v] := by
  obtain ⟨inl, heap⟩ := c
  cases heap with
  | some hv => simp [CompactVec.push, CompactVec.as_slice]
  | none =>
    by_cases h : inl.length < N <;>
      simp [CompactVec.push, CompactVec.as_slice, RVec.withCapacity, h]

@[simp]
theorem CompactVec.extend_as_slice (c : CompactVec T N) (l : List T) :
    (c.extend l).as_slice = c.as_slice ++ l := by
  induction l generalizing c with
  | nil => simp [CompactVec.extend]
  | cons a t ih =>
    show ((c.push a).extend t).as_slice = _
    rw [ih, CompactVec.push_as_slice, List.append_assoc]
    rfl

theorem CompactVec.pop_spec (c : CompactVec T N) :
    (c.pop).1 = c.as_slice.getLast? ∧
      (c.pop).2.as_slice = c.as_slice.dropLast := by
  obtain ⟨inl, heap⟩ := c
  cases heap with
  | none =>
    rcases List.eq_nil_or_concat inl with h | ⟨l, a, h⟩ <;> subst h <;>
      simp [CompactVec.pop, CompactVec.as_slice]
  | some hv =>
    obtain ⟨d, cap⟩ := hv
    rcases List.eq_nil_or_concat d with h | ⟨l, a, h⟩ <;> subst h
    · simp [CompactVec.pop, CompactVec.as_slice]
    · by_cases hn : l.length ≤ N <;>
        simp [CompactVec.pop, CompactVec.as_slice, List.dropLast_concat, hn]

theorem CompactVec.len_eq (c : CompactVec T N) :
    c.len = c.as_slice.length := by
  obtain ⟨inl, heap⟩ := c; cases heap <;> rfl

/-! Interleaved push/pop operation sequences, for the refinement of
CompactVec against a plain Vec (claim C1). -/

/-- One vector operation: a push of a value or a pop. -/
inductive VOp (T : Type) where
  | push : T → VOp T
  | pop  : VOp T

/-- Vec::pop on the plain dynamic-array model: remove and return the last
element (None when empty). -/
def listPop (l : List T) : Option T × List T :=
  (l.getLast?, l.dropLast)

/-- Runs an operation sequence on a CompactVec, collecting each pop result
in order. -/
def CompactVec.run (c : CompactVec T N) :
    List (VOp T) → CompactVec T N × List (Option T)
  | [] => (c, [])
  | VOp.push v :: ops => CompactVec.run (c.push v) ops
  | VOp.pop :: ops =>
    let r := c.pop
    let rest := CompactVec.run r.2 ops
    (rest.1, r.1 :: rest.2)

/-- Runs an operation sequence on a plain dynamic array (Vec<T> contents),
collecting each pop result in order. -/
def listRun (l : List T) : List (VOp T) → List T × List (Option T)
  | [] => (l, [])
  | VOp.push v :: ops => listRun (l ++ [v]) ops
  | VOp.pop :: ops =>
    let r := listPop l
    let rest := listRun r.2 ops
    (rest.1, r.1 :: rest.2)

theorem CompactVec.run_refines (ops : List (VOp T)) (c : CompactVec T N) :
    (c.run ops).1.as_slice = (listRun c.as_slice ops).1 ∧
      (c.run ops).2 = (listRun c.as_slice ops).2 := by
  induction ops generalizing c with
  | nil => exact ⟨rfl, rfl⟩
  | cons op ops ih =>
    cases op with
    | push v =>
      have h := ih (c.push v)
      rw [CompactVec.push_as_slice] at h
      exact h
    | pop =>
      have hpop := CompactVec.pop_spec c
      have h := ih (c.pop).2
      rw [hpop.2] at h
      refine ⟨h.1, ?_⟩
      show (c.pop).1 :: ((c.pop).2.run ops).2 = _
      rw [h.2, hpop.1]
      rfl

/-! Inline phase and spill transition lemmas (claims C2 and C3). -/

theorem CompactVec.extend_inline (l acc : List T)
    (h : acc.length + l.length ≤ N) :
    CompactVec.extend (T := T) (N := N) ⟨acc, none⟩ l = ⟨acc ++ l, none⟩ := by
  induction l generalizing acc with
  | nil => simp [CompactVec.extend]
  | cons a t ih =>
    have hlt : acc.length < N := by
      simp only [List.length_cons] at h; omega
    show CompactVec.extend (CompactVec.push ⟨acc, none⟩ a) t = _
    rw [show CompactVec.push (T := T) (N := N) ⟨acc, none⟩ a
          = ⟨acc ++ [a], none⟩ by simp [CompactVec.push, hlt]]
    rw [ih (acc ++ [a]) (by simp only [List.length_append, List.length_cons,
      List.length_nil] at h ⊢; omega)]
    simp

theorem CompactVec.push_spill (l : List T) (hl : l.length = N) (v : T) :
    CompactVec.push (T := T) (N := N) ⟨l, none⟩ v
      = ⟨[], some ⟨l ++ [v], N * 2 + 1⟩⟩ := by
  have hnlt : ¬ l.length < N := by omega
  unfold CompactVec.push
  simp only [hnlt, if_false]
  have hcap : ((l.foldl RVec.push (RVec.withCapacity (T := T)
      (N * 2 + 1)))).cap = N * 2 + 1 := by
    apply RVec.foldl_push_cap
    simp [RVec.withCapacity]; omega
  have hdata : ((l.foldl RVec.push (RVec.withCapacity (T := T)
      (N * 2 + 1)))).data = l := by
    simp [RVec.withCapacity]
  have hlen : ((l.foldl RVec.push (RVec.withCapacity (T := T)
      (N * 2 + 1)))).data.length < ((l.foldl RVec.push
      (RVec.withCapacity (T := T) (N * 2 + 1)))).cap := by
    rw [hcap, hdata, hl]; omega
  have hfin : (l.foldl RVec.push (RVec.withCapacity (T := T)
      (N * 2 + 1))).push v = ⟨l ++ [v], N * 2 + 1⟩ := by
    ext
    · rw [RVec.push_data, hdata]
    · rw [RVec.push_cap_of_lt _ _ hlen, hcap]
  rw [hfin]

/-- Claim C1: for every element type T, inline capacity N, and finite
interleaved sequence of push and pop operations applied to a
CompactVec<T, N> created by new(), the resulting as_slice contents equal
what a plain dynamic array (Vec<T>) holds after the same sequence, and
every pop returns the same optional value the plain array pop returns. -/
theorem compactVec_refines_plain_vec (T : Type) (N : Nat)
    (ops : List (VOp T)) :
    ((CompactVec.new (T := T) (N := N)).run ops).1.as_slice
        = (listRun [] ops).1 ∧
      ((CompactVec.new (T := T) (N := N)).run ops).2 = (listRun [] ops).2 :=
  CompactVec.run_refines ops CompactVec.new

/-- Claim C2: pushing exactly N values into a CompactVec<T, N> created by
new() leaves is_inline() true with contents the pushed sequence in order;
pushing an (N+1)-th value makes is_inline() false with contents still the
pushed sequence, and the heap Vec allocated at the spill has capacity
2N+1. -/
theorem compactVec_spill_threshold (T : Type) (N : Nat) (vs : List T)
    (v : T) (hvs : vs.length = N) :
    ((CompactVec.new (T := T) (N := N)).extend vs).is_inline = true ∧
      ((CompactVec.new (T := T) (N := N)).extend vs).as_slice = vs ∧
      (((CompactVec.new (T := T) (N := N)).extend vs).push v).is_inline
        = false ∧
      (((CompactVec.new (T := T) (N := N)).extend vs).push v).as_slice
        = vs ++ [v] ∧
      (((CompactVec.new (T := T) (N := N)).extend vs).push v).capacity
        = 2 * N + 1 := by
  have hext : (CompactVec.new (T := T) (N := N)).extend vs = ⟨vs, none⟩ := by
    have h := CompactVec.extend_inline (N := N) vs [] (by simp [hvs])
    simpa [CompactVec.new] using h
  rw [hext, CompactVec.push_spill vs hvs v]
  refine ⟨rfl, rfl, rfl, rfl, ?_⟩
  show N * 2 + 1 = 2 * N + 1
  omega

/-- Witness for claim C2 at T = Nat, N = 2, pushes [1, 2] then 3. -/
theorem compactVec_spill_threshold_witness :
    ((CompactVec.new (T := Nat) (N := 2)).extend [1, 2]).is_inline = true ∧
      ((CompactVec.new (T := Nat) (N := 2)).extend [1, 2]).as_slice
        = [1, 2] ∧
      (((CompactVec.new (T := Nat) (N := 2)).extend [1, 2]).push 3).is_inline
        = false ∧
      (((CompactVec.new (T := Nat) (N := 2)).extend [1, 2]).push 3).as_slice
        = [1, 2] ++ [3] ∧
      (((CompactVec.new (T := Nat) (N := 2)).extend [1, 2]).push 3).capacity
        = 2 * 2 + 1 :=
  compactVec_spill_threshold Nat 2 [1, 2] 3 (by decide)

/-- Claim C3: pushing N+1 values into a CompactVec<T, N> created by new()
(forcing the heap representation) and then popping once returns the last
pushed value, leaves len() = N, makes is_inline() true again, and leaves
the contents equal to the first N pushed values in order. -/
theorem compactVec_demotion_roundtrip (T : Type) (N : Nat) (vs : List T)
    (v : T) (hvs : vs.length = N) :
    (((CompactVec.new (T := T) (N := N)).extend (vs ++ [v])).pop).1
        = some v ∧
      (((CompactVec.new (T := T) (N := N)).extend (vs ++ [v])).pop).2.len
        = N ∧
      (((CompactVec.new (T := T) (N := N)).extend
          (vs ++ [v])).pop).2.is_inline = true ∧
      (((CompactVec.new (T := T) (N := N)).extend
          (vs ++ [v])).pop).2.as_slice = vs := by
  have hext : (CompactVec.new (T := T) (N := N)).extend (vs ++ [v])
      = ⟨[], some ⟨vs ++ [v], N * 2 + 1⟩⟩ := by
    have h1 : (CompactVec.new (T := T) (N := N)).extend vs = ⟨vs, none⟩ := by
      have h := CompactVec.extend_inline (N := N) vs [] (by simp [hvs])
      simpa [CompactVec.new] using h
    have h2 : (CompactVec.new (T := T) (N := N)).extend (vs ++ [v])
        = ((CompactVec.new (T := T) (N := N)).extend vs).push v := by
      unfold CompactVec.extend
      rw [List.foldl_append]
      rfl
    rw [h2, h1, CompactVec.push_spill vs hvs v]
  rw [hext]
  have hle : (vs ++ [v]).dropLast.length ≤ N := by
    rw [List.dropLast_concat, hvs]
  refine ⟨?_, ?_, ?_, ?_⟩ <;>
    simp [CompactVec.pop, CompactVec.len, CompactVec.is_inline,
      CompactVec.as_slice, List.getLast?_concat, List.dropLast_concat, hvs]

/-- Witness for claim C3 at T = Nat, N = 2, pushes [1, 2, 3]. -/
theorem compactVec_demotion_roundtrip_witness :
    (((CompactVec.new (T := Nat) (N := 2)).extend ([1, 2] ++ [3])).pop).1
        = some 3 ∧
      (((CompactVec.new (T := Nat) (N := 2)).extend
          ([1, 2] ++ [3])).pop).2.len = 2 ∧
      (((CompactVec.new (T := Nat) (N := 2)).extend
          ([1, 2] ++ [3])).pop).2.is_inline = true ∧
      (((CompactVec.new (T := Nat) (N := 2)).extend
          ([1, 2] ++ [3])).pop).2.as_slice = [1, 2] :=
  compactVec_demotion_roundtrip Nat 2 [1, 2] 3 (by decide)

/-- Claim C10: a CompactVec<T, N> in the spilled representation with zero
elements (reachable via with_capacity(c) for c > N) returns None from
pop() and is left unchanged: it stays spilled and empty, with no demotion
on the None path. -/
theorem compactVec_pop_spilled_empty (T : Type) (N : Nat)
    (c : CompactVec T N) (rv : RVec T) (cap : Nat)
    (hheap : c.heap = some rv) (hdata : rv.data = []) (hcap : N < cap) :
    c.pop = (none, c) ∧ c.is_inline = false ∧ c.len = 0 ∧
      (CompactVec.with_capacity (T := T) (N := N) cap).heap
        = some (RVec.withCapacity cap) ∧
      (CompactVec.with_capacity (T := T) (N := N) cap).len = 0 := by
  have hwc : ¬ cap ≤ N := by omega
  obtain ⟨d, rcap⟩ := rv
  simp only at hdata
  subst hdata
  refine ⟨?_, ?_, ?_, ?_, ?_⟩
  · simp [CompactVec.pop, hheap]
  · simp [CompactVec.is_inline, hheap]
  · simp [CompactVec.len, hheap]
  · simp [CompactVec.with_capacity, RVec.withCapacity, hwc]
  · simp [CompactVec.with_capacity, CompactVec.len, RVec.withCapacity, hwc]

/-- Witness for claim C10 at T = Nat, N = 2, with_capacity 5. -/
theorem compactVec_pop_spilled_empty_witness :
    (CompactVec.with_capacity (T := Nat) (N := 2) 5).pop
        = (none, CompactVec.with_capacity (T := Nat) (N := 2) 5) ∧
      (CompactVec.with_capacity (T := Nat) (N := 2) 5).is_inline = false ∧
      (CompactVec.with_capacity (T := Nat) (N := 2) 5).len = 0 ∧
      (CompactVec.with_capacity (T := Nat) (N := 2) 5).heap
        = some (RVec.withCapacity 5) ∧
      (CompactVec.with_capacity (T := Nat) (N := 2) 5).len = 0 :=
  compactVec_pop_spilled_empty Nat 2
    (CompactVec.with_capacity 5) ⟨[], 5⟩ 5 (by decide) rfl (by decide)

/-! InlineStr (src/inline_str.rs): a fixed-capacity inline string buffer.
Strings (&str, String, Cow<str>) are modelled by their UTF-8 byte
contents, as lists of Nat < 256. -/

/-- size_of::<isize>() on the 64-bit target modelled here. -/
def usizeBytes : Nat := 8

/-- MAX_INLINE_STR_LEN = 3 * size_of::<isize>() - 2 (22 on 64-bit). -/
def MAX_INLINE_STR_LEN : Nat := 3 * usizeBytes - 2

/-- Whether a byte is a UTF-8 continuation byte (0x80..=0xBF). -/
def isUtf8Cont (b : Nat) : Bool := 0x80 ≤ b && b ≤ 0xBF

/-- UTF-8 validity of a byte sequence, following the table in RFC 3629
(the same well-formedness condition Rust str::from_utf8 checks). -/
def utf8Valid : List Nat → Bool
  | [] => true
  | b :: rest =>
    if b ≤ 0x7F then utf8Valid rest
    else if b < 0xC2 then false
    else if b ≤ 0xDF then
      match rest with
      | b1 :: r => isUtf8Cont b1 && utf8Valid r
      | [] => false
    else if b = 0xE0 then
      match rest with
      | b1 :: b2 :: r =>
        (0xA0 ≤ b1 && b1 ≤ 0xBF) && isUtf8Cont b2 && utf8Valid r
      | _ => false
    else if b ≤ 0xEC then
      match rest with
      | b1 :: b2 :: r => isUtf8Cont b1 && isUtf8Cont b2 && utf8Valid r
      | _ => false
    else if b = 0xED then
      match rest with
      | b1 :: b2 :: r =>
        (0x80 ≤ b1 && b1 ≤ 0x9F) && isUtf8Cont b2 && utf8Valid r
      | _ => false
    else if b ≤ 0xEF then
      match rest with
      | b1 :: b2 :: r => isUtf8Cont b1 && isUtf8Cont b2 && utf8Valid r
      | _ => false
    else if b = 0xF0 then
      match rest with
      | b1 :: b2 :: b3 :: r =>
        (0x90 ≤ b1 && b1 ≤ 0xBF) && isUtf8Cont b2 && isUtf8Cont b3
          && utf8Valid r
      | _ => false
    else if b ≤ 0xF3 then
      match rest with
      | b1 :: b2 :: b3 :: r =>
        isUtf8Cont b1 && isUtf8Cont b2 && isUtf8Cont b3 && utf8Valid r
      | _ => false
    else if b = 0xF4 then
      match rest with
      | b1 :: b2 :: b3 :: r =>
        (0x80 ≤ b1 && b1 ≤ 0x8F) && isUtf8Cont b2 && isUtf8Cont b3
          && utf8Valid r
      | _ => false
    else false

/-- Model of InlineStr: buf is the fixed [u8; MAX_INLINE_STR_LEN] array
(always of length MAX_INLINE_STR_LEN, zero-filled past the content), len
is the u8 length field. -/
structure InlineStr where
  buf : List Nat
  len : Nat
  deriving DecidableEq

/-- InlineStr::as_bytes(): the first len bytes of the buffer. -/
def InlineStr.as_bytes (s : InlineStr) : List Nat := s.buf.take s.len

/-- The unit error returned when a string exceeds MAX_INLINE_STR_LEN. -/
inductive StringTooLongError where
  | mk : StringTooLongError
  deriving DecidableEq

/-- impl TryFrom<&str> for InlineStr: errors when the byte length exceeds
MAX_INLINE_STR_LEN, otherwise copies the bytes into a zero-initialized
buffer. -/
def InlineStr.tryFrom (s : List Nat) :
    Except StringTooLongError InlineStr :=
  if s.length > MAX_INLINE_STR_LEN then Except.error StringTooLongError.mk
  else Except.ok
    ⟨s ++ List.replicate (MAX_INLINE_STR_LEN - s.length) 0, s.length⟩

/-- impl From<String> for InlineStr: takes len = min(src.len(),
MAX_INLINE_STR_LEN) and copies only the first len bytes — truncating
instead of failing. -/
def InlineStr.fromString (s : List Nat) : InlineStr :=
  ⟨s.take (min s.length MAX_INLINE_STR_LEN)
      ++ List.replicate (MAX_INLINE_STR_LEN - min s.length MAX_INLINE_STR_LEN) 0,
    min s.length MAX_INLINE_STR_LEN⟩

/-- impl From<Cow<str>> for InlineStr: byte-for-byte the same truncating
copy as From<String>. -/
def InlineStr.fromCow (s : List Nat) : InlineStr := InlineStr.fromString s

theorem InlineStr.tryFrom_as_bytes (s : List Nat)
    (h : s.length ≤ MAX_INLINE_STR_LEN) :
    InlineStr.tryFrom s = Except.ok
        ⟨s ++ List.replicate (MAX_INLINE_STR_LEN - s.length) 0, s.length⟩ ∧
      InlineStr.as_bytes
        ⟨s ++ List.replicate (MAX_INLINE_STR_LEN - s.length) 0, s.length⟩
        = s := by
  constructor
  · unfold InlineStr.tryFrom
    rw [if_neg (by omega)]
  · unfold InlineStr.as_bytes
    simp

/-- Claim C6: for every string slice s, InlineStr::try_from(s) succeeds
with content exactly s if and only if the byte length of s is at most
MAX_INLINE_STR_LEN = 3 * word_size - 2 = 22 (64-bit); for a longer slice
it fails with StringTooLongError. -/
theorem inlineStr_tryFrom_boundary (s : List Nat) :
    ((InlineStr.tryFrom s).isOk
        = decide (s.length ≤ MAX_INLINE_STR_LEN)) ∧
      (∀ v : InlineStr, InlineStr.tryFrom s = Except.ok v →
        v.as_bytes = s) ∧
      (MAX_INLINE_STR_LEN < s.length →
        InlineStr.tryFrom s = Except.error StringTooLongError.mk) ∧
      MAX_INLINE_STR_LEN = 3 * usizeBytes - 2 ∧ MAX_INLINE_STR_LEN = 22 := by
  by_cases h : s.length ≤ MAX_INLINE_STR_LEN
  · obtain ⟨hok, hbytes⟩ := InlineStr.tryFrom_as_bytes s h
    refine ⟨?_, ?_, ?_, rfl, rfl⟩
    · rw [hok]; simp [Except.isOk, Except.toBool, h]
    · intro v hv
      rw [hok] at hv
      cases hv
      exact hbytes
    · intro hlt; omega
  · have herr : InlineStr.tryFrom s = Except.error StringTooLongError.mk := by
      unfold InlineStr.tryFrom
      rw [if_pos (by omega)]
    refine ⟨?_, ?_, fun _ => herr, rfl, rfl⟩
    · rw [herr]; simp [Except.isOk, Except.toBool, h]
    · intro v hv
      rw [herr] at hv
      cases hv

/-- Witness for claim C6: a 22-byte string constructs (content intact),
a 23-byte string fails with StringTooLongError. -/
theorem inlineStr_tryFrom_boundary_witness :
    ((InlineStr.tryFrom (List.replicate 22 104)).isOk
        = decide ((List.replicate 22 104).length ≤ MAX_INLINE_STR_LEN)) ∧
      InlineStr.as_bytes ⟨List.replicate 22 104 ++ List.replicate 0 0, 22⟩
        = List.replicate 22 104 ∧
      ((InlineStr.tryFrom (List.replicate 23 104)).isOk
        = decide ((List.replicate 23 104).length ≤ MAX_INLINE_STR_LEN)) ∧
      InlineStr.tryFrom (List.replicate 23 104)
        = Except.error StringTooLongError.mk ∧
      MAX_INLINE_STR_LEN = 3 * usizeBytes - 2 ∧ MAX_INLINE_STR_LEN = 22 :=
  ⟨(inlineStr_tryFrom_boundary (List.replicate 22 104)).1,
    (inlineStr_tryFrom_boundary (List.replicate 22 104)).2.1
      ⟨List.replicate 22 104 ++ List.replicate 0 0, 22⟩ rfl,
    (inlineStr_tryFrom_boundary (List.replicate 23 104)).1,
    (inlineStr_tryFrom_boundary (List.replicate 23 104)).2.2.1 (by decide),
    (inlineStr_tryFrom_boundary (List.replicate 22 104)).2.2.2⟩

/-- A 23-byte valid UTF-8 string whose final character is the two-byte
U+00E9: twenty-one 0x61 bytes followed by 0xC3 0xA9. -/
def utf8SplitInput : List Nat := List.replicate 21 0x61 ++ [0xC3, 0xA9]

/-- Claim C4 (bug): From<String> truncates at MAX_INLINE_STR_LEN and can
split a multi-byte character. On the valid 23-byte input utf8SplitInput
the constructed InlineStr has len within bounds but its bytes
[0, length) end with a dangling 0xC3 lead byte and are NOT valid UTF-8,
violating the invariant the code itself asserts in as_str. -/
theorem inlineStr_fromString_utf8_bug :
    utf8Valid utf8SplitInput = true ∧
      utf8SplitInput.length = 23 ∧
      (InlineStr.fromString utf8SplitInput).len ≤ MAX_INLINE_STR_LEN ∧
      utf8Valid (InlineStr.fromString utf8SplitInput).as_bytes = false := by
  decide

/-- A 23-byte ASCII string (all bytes 0x61). -/
def overlongAscii : List Nat := List.replicate 23 0x61

/-- Claim C5 (bug): From<String> on a 23-byte owned string does not fail
with the length-exceeded error — it is infallible and silently yields a
truncated 22-byte InlineStr. -/
theorem inlineStr_fromString_truncates :
    overlongAscii.length = 23 ∧
      MAX_INLINE_STR_LEN < overlongAscii.length ∧
      (InlineStr.fromString overlongAscii).len = MAX_INLINE_STR_LEN ∧
      (InlineStr.fromString overlongAscii).as_bytes
        = overlongAscii.take MAX_INLINE_STR_LEN := by
  decide

/-! CowStr (src/cow_str.rs): a three-variant owned/borrowed/inlined
string. Each variant carries the UTF-8 byte content of its payload. -/

/-- Model of CowStr: Owned(Box<str>), Inlined(InlineStr), Borrowed(&str). -/
inductive CowStr where
  | Owned    : List Nat → CowStr
  | Inlined  : InlineStr → CowStr
  | Borrowed : List Nat → CowStr
  deriving DecidableEq

/-- CowStr::as_str() (and Deref): the logical string content, dispatched
per variant. -/
def CowStr.as_str : CowStr → List Nat
  | CowStr.Owned s => s
  | CowStr.Borrowed s => s
  | CowStr.Inlined s => s.as_bytes

/-- impl Clone for CowStr: Owned tries to downgrade into Inlined via
InlineStr::try_from, falling back to an owned duplicate; Borrowed copies
the reference; Inlined is a bitwise copy. -/
def CowStr.clone : CowStr → CowStr
  | CowStr.Owned s =>
    match InlineStr.tryFrom s with
    | Except.ok inline => CowStr.Inlined inline
    | Except.error _ => CowStr.Owned s
  | CowStr.Borrowed s => CowStr.Borrowed s
  | CowStr.Inlined s => CowStr.Inlined s

/-- Claim C7: clone() of a Borrowed value is the same Borrowed reference;
clone() of an Inlined value is an identical Inlined value; clone() of an
Owned value downgrades to Inlined exactly when the content fits
MAX_INLINE_STR_LEN and otherwise duplicates the Owned value; in every
case the clone has the same string content as the original. -/
theorem cowStr_clone_spec (s b : List Nat) (i : InlineStr)
    (hfit : s.length ≤ MAX_INLINE_STR_LEN) :
    (CowStr.Borrowed b).clone = CowStr.Borrowed b ∧
      (CowStr.Inlined i).clone = CowStr.Inlined i ∧
      (∃ j : InlineStr, (CowStr.Owned s).clone = CowStr.Inlined j ∧
        j.as_bytes = s) ∧
      (∀ t : List Nat, MAX_INLINE_STR_LEN < t.length →
        (CowStr.Owned t).clone = CowStr.Owned t) ∧
      (∀ c : CowStr, c.clone.as_str = c.as_str) := by
  obtain ⟨hok, hbytes⟩ := InlineStr.tryFrom_as_bytes s hfit
  refine ⟨rfl, rfl, ⟨_, ?_, hbytes⟩, ?_, ?_⟩
  · simp only [CowStr.clone, hok]
  · intro t ht
    have herr : InlineStr.tryFrom t = Except.error StringTooLongError.mk := by
      unfold InlineStr.tryFrom; rw [if_pos (by omega)]
    simp only [CowStr.clone, herr]
  · intro c
    cases c with
    | Borrowed t => rfl
    | Inlined j => rfl
    | Owned t =>
      by_cases hlen : t.length ≤ MAX_INLINE_STR_LEN
      · obtain ⟨hok2, hbytes2⟩ := InlineStr.tryFrom_as_bytes t hlen
        simp only [CowStr.clone, hok2, CowStr.as_str]
        exact hbytes2
      · have herr : InlineStr.tryFrom t
            = Except.error StringTooLongError.mk := by
          unfold InlineStr.tryFrom; rw [if_pos (by omega)]
        simp only [CowStr.clone, herr]

/-- Witness for claim C7 at the 5-byte owned string of concrete scenario
D ("hello"), a borrowed slice, an inlined value, and a 23-byte owned
string that stays Owned. -/
theorem cowStr_clone_spec_witness :
    (CowStr.Borrowed [97, 98]).clone = CowStr.Borrowed [97, 98] ∧
      (CowStr.Inlined (InlineStr.fromString [99])).clone
        = CowStr.Inlined (InlineStr.fromString [99]) ∧
      (CowStr.Owned (List.replicate 23 104)).clone
        = CowStr.Owned (List.replicate 23 104) ∧
      (CowStr.Owned [104, 101, 108, 108, 111]).clone.as_str
        = (CowStr.Owned [104, 101, 108, 108, 111]).as_str :=
  ⟨(cowStr_clone_spec [104, 101, 108, 108, 111] [97, 98]
      (InlineStr.fromString [99]) (by decide)).1,
    (cowStr_clone_spec [104, 101, 108, 108, 111] [97, 98]
      (InlineStr.fromString [99]) (by decide)).2.1,
    (cowStr_clone_spec [104, 101, 108, 108, 111] [97, 98]
      (InlineStr.fromString [99]) (by decide)).2.2.2.1
      (List.replicate 23 104) (by decide),
    (cowStr_clone_spec [104, 101, 108, 108, 111] [97, 98]
      (InlineStr.fromString [99]) (by decide)).2.2.2.2
      (CowStr.Owned [104, 101, 108, 108, 111])⟩

/-! Representation transparency (claim C8): equality, ordering and
hashing of CompactVec and CowStr are functions of the logical contents
only, exactly as the source defines them over as_slice() / deref(). -/

/-- Pointwise slice equality with a given element equality, as in the
slice PartialEq used by impl PartialEq for CompactVec. -/
def listEqWith {T : Type} (f : T → T → Bool) : List T → List T → Bool
  | [], [] => true
  | x :: xs, y :: ys => f x y && listEqWith f xs ys
  | _, _ => false

/-- Lexicographic comparison with a given element comparison, as in the
slice / str Ord used by the CompactVec and CowStr Ord impls. -/
def lexCompare {T : Type} (f : T → T → Ordering) :
    List T → List T → Ordering
  | [], [] => Ordering.eq
  | [], _ :: _ => Ordering.lt
  | _ :: _, [] => Ordering.gt
  | x :: xs, y :: ys =>
    match f x y with
    | Ordering.eq => lexCompare f xs ys
    | o => o

/-- impl PartialEq for CompactVec: self.as_slice().eq(other.as_slice()). -/
def CompactVec.eqWith (f : T → T → Bool) (a b : CompactVec T N) : Bool :=
  listEqWith f a.as_slice b.as_slice

/-- impl Ord for CompactVec: self.as_slice().cmp(other.as_slice()). -/
def CompactVec.cmpWith (f : T → T → Ordering) (a b : CompactVec T N) :
    Ordering :=
  lexCompare f a.as_slice b.as_slice

/-- impl Hash for CompactVec: self.as_slice().hash(state); any hasher
computes a function of the element sequence alone. -/
def CompactVec.hashWith (h : List T → Nat) (a : CompactVec T N) : Nat :=
  h a.as_slice

/-- impl PartialEq for CowStr: self.deref() == other.deref(). -/
def CowStr.beq (a b : CowStr) : Bool := a.as_str == b.as_str

/-- Comparison of two bytes, as u8 Ord. -/
def byteCompare (a b : Nat) : Ordering :=
  if a < b then Ordering.lt else if a = b then Ordering.eq
  else Ordering.gt

/-- impl PartialOrd for CowStr: lexicographic comparison of the
dereferenced contents. -/
def CowStr.cmp (a b : CowStr) : Ordering :=
  lexCompare byteCompare a.as_str b.as_str

/-- impl Hash for CowStr: self.deref().hash(state). -/
def CowStr.hashWith (h : List Nat → Nat) (a : CowStr) : Nat := h a.as_str

theorem listEqWith_refl {T : Type} (f : T → T → Bool)
    (hf : ∀ a, f a a = true) (l : List T) : listEqWith f l l = true := by
  induction l with
  | nil => rfl
  | cons a t ih => simp [listEqWith, hf, ih]

theorem lexCompare_refl {T : Type} (f : T → T → Ordering)
    (hf : ∀ a, f a a = Ordering.eq) (l : List T) :
    lexCompare f l l = Ordering.eq := by
  induction l with
  | nil => rfl
  | cons a t ih => simp [lexCompare, hf, ih]

/-- Claim C8: two CompactVec values with equal element sequences, and two
CowStr values with equal string content, are equal, compare as equal (and
compare identically, lexicographically, against any third value), and
hash identically — regardless of inline/spilled representation and of the
CowStr variant tag. -/
theorem representation_transparency (T : Type) (N : Nat)
    (f : T → T → Bool) (g : T → T → Ordering)
    (c1 c2 : CompactVec T N) (s1 s2 : CowStr)
    (hf : ∀ a, f a a = true) (hg : ∀ a, g a a = Ordering.eq)
    (hc : c1.as_slice = c2.as_slice) (hs : s1.as_str = s2.as_str) :
    (CompactVec.eqWith f c1 c2 = true ∧
      CompactVec.cmpWith g c1 c2 = Ordering.eq ∧
      (∀ h : List T → Nat,
        CompactVec.hashWith h c1 = CompactVec.hashWith h c2) ∧
      (∀ c3 : CompactVec T N,
        CompactVec.cmpWith g c1 c3 = lexCompare g c1.as_slice c3.as_slice ∧
          CompactVec.cmpWith g c1 c3 = CompactVec.cmpWith g c2 c3)) ∧
      (CowStr.beq s1 s2 = true ∧ CowStr.cmp s1 s2 = Ordering.eq ∧
        (∀ h : List Nat → Nat,
          CowStr.hashWith h s1 = CowStr.hashWith h s2) ∧
        (∀ s3 : CowStr,
          CowStr.cmp s1 s3 = lexCompare byteCompare
              s1.as_str s3.as_str ∧
            CowStr.cmp s1 s3 = CowStr.cmp s2 s3)) := by
  refine ⟨⟨?_, ?_, ?_, ?_⟩, ?_, ?_, ?_, ?_⟩
  · unfold CompactVec.eqWith
    rw [hc]
    exact listEqWith_refl f hf c2.as_slice
  · unfold CompactVec.cmpWith
    rw [hc]
    exact lexCompare_refl g hg c2.as_slice
  · intro h
    unfold CompactVec.hashWith
    rw [hc]
  · intro c3
    refine ⟨rfl, ?_⟩
    unfold CompactVec.cmpWith
    rw [hc]
  · unfold CowStr.beq
    rw [hs]
    simp
  · unfold CowStr.cmp
    rw [hs]
    exact lexCompare_refl _ (fun a => by simp [byteCompare]) s2.as_str
  · intro h
    unfold CowStr.hashWith
    rw [hs]
  · intro s3
    refine ⟨rfl, ?_⟩
    unfold CowStr.cmp
    rw [hs]

/-- Witness for claim C8: N = 1, an inline [5] versus a spilled [5]
(built via with_capacity 3), and an Owned "a" versus an Inlined "a". -/
theorem representation_transparency_witness :
    (CompactVec.eqWith (fun _ _ => true)
        ((CompactVec.new (T := Nat) (N := 1)).extend [5])
        ((CompactVec.with_capacity (T := Nat) (N := 1) 3).extend [5])
        = true ∧
      CompactVec.cmpWith (fun _ _ => Ordering.eq)
        ((CompactVec.new (T := Nat) (N := 1)).extend [5])
        ((CompactVec.with_capacity (T := Nat) (N := 1) 3).extend [5])
        = Ordering.eq ∧
      CompactVec.hashWith List.length
        ((CompactVec.new (T := Nat) (N := 1)).extend [5])
        = CompactVec.hashWith List.length
          ((CompactVec.with_capacity (T := Nat) (N := 1) 3).extend [5])) ∧
      (CowStr.beq (CowStr.Owned [97])
          (CowStr.Inlined (InlineStr.fromString [97])) = true ∧
        CowStr.cmp (CowStr.Owned [97])
          (CowStr.Inlined (InlineStr.fromString [97])) = Ordering.eq ∧
        CowStr.hashWith List.length (CowStr.Owned [97])
          = CowStr.hashWith List.length
            (CowStr.Inlined (InlineStr.fromString [97]))) := by
  have h := representation_transparency Nat 1
    (fun _ _ => true) (fun _ _ => Ordering.eq)
    ((CompactVec.new (T := Nat) (N := 1)).extend [5])
    ((CompactVec.with_capacity (T := Nat) (N := 1) 3).extend [5])
    (CowStr.Owned [97]) (CowStr.Inlined (InlineStr.fromString [97]))
    (fun _ => rfl) (fun _ => rfl) (by decide) (by decide)
  exact ⟨⟨h.1.1, h.1.2.1, h.1.2.2.1 List.length⟩,
    h.2.1, h.2.2.1, h.2.2.2.1 List.length⟩

/-! SmallString<N> (src/small_string.rs): a UTF-8 string over
CompactVec<u8, N>. A char is modelled by its Unicode scalar value. -/

/-- UTF-8 encoding of a Unicode scalar value, as char::encode_utf8. -/
def utf8EncodeChar (c : Nat) : List Nat :=
  if c < 0x80 then [c]
  else if c < 0x800 then
    [0xC0 + c / 64, 0x80 + c % 64]
  else if c < 0x10000 then
    [0xE0 + c / 4096, 0x80 + (c / 64) % 64, 0x80 + c % 64]
  else
    [0xF0 + c / 262144, 0x80 + (c / 4096) % 64, 0x80 + (c / 64) % 64,
      0x80 + c % 64]

/-- Model of SmallString<N>: a CompactVec<u8, N> of the UTF-8 bytes. -/
structure SmallString (N : Nat) where
  inner : CompactVec Nat N
  deriving DecidableEq

/-- SmallString::new(). -/
def SmallString.new {N : Nat} : SmallString N := ⟨CompactVec.new⟩

/-- SmallString::len(). -/
def SmallString.len {N : Nat} (s : SmallString N) : Nat := s.inner.len

/-- SmallString::is_inline(). -/
def SmallString.is_inline {N : Nat} (s : SmallString N) : Bool :=
  s.inner.is_inline

/-- SmallString::as_str(): the byte sequence of the inner container,
reinterpreted (unchecked) as a str. -/
def SmallString.as_str {N : Nat} (s : SmallString N) : List Nat :=
  s.inner.as_slice

/-- SmallString::push_str(s): forwards the slice bytes to the inner
container's extend. -/
def SmallString.push_str {N : Nat} (s : SmallString N) (t : List Nat) :
    SmallString N :=
  ⟨s.inner.extend t⟩

/-- SmallString::push(c): encodes the char to UTF-8 and appends via
push_str. -/
def SmallString.push {N : Nat} (s : SmallString N) (c : Nat) :
    SmallString N :=
  s.push_str (utf8EncodeChar c)

/-- One SmallString mutation: push(char) or push_str(slice). -/
inductive StrOp where
  | pushChar : Nat → StrOp
  | pushStr  : List Nat → StrOp

/-- The UTF-8 bytes an operation appends. -/
def StrOp.bytes : StrOp → List Nat
  | StrOp.pushChar c => utf8EncodeChar c
  | StrOp.pushStr s => s

/-- Runs a sequence of push / push_str calls. -/
def SmallString.run {N : Nat} (s : SmallString N) :
    List StrOp → SmallString N
  | [] => s
  | StrOp.pushChar c :: ops => (s.push c).run ops
  | StrOp.pushStr t :: ops => (s.push_str t).run ops

/-- Representation invariant of a CompactVec reachable from new() by
pushes: inline holds at most N elements, and a spilled heap holds more
than N. -/
def CompactVec.goodRep (c : CompactVec T N) : Prop :=
  match c.heap with
  | none => c.inline.length ≤ N
  | some heap => N < heap.data.length

theorem CompactVec.push_goodRep (c : CompactVec T N) (v : T)
    (hc : c.goodRep) : (c.push v).goodRep := by
  obtain ⟨inl, heap⟩ := c
  cases heap with
  | some hv =>
    simp only [CompactVec.goodRep] at hc ⊢
    simp only [CompactVec.push, RVec.push_data, List.length_append,
      List.length_cons, List.length_nil]
    omega
  | none =>
    by_cases h : inl.length < N
    · simp only [CompactVec.push, CompactVec.goodRep, h, if_true,
        List.length_append, List.length_cons, List.length_nil]
      omega
    · simp only [CompactVec.push, CompactVec.goodRep, h, if_false,
        RVec.push_data, RVec.foldl_push_data, RVec.withCapacity,
        List.length_append, List.length_cons, List.length_nil,
        List.nil_append]
      omega

theorem CompactVec.extend_goodRep (l : List T) (c : CompactVec T N)
    (hc : c.goodRep) : (c.extend l).goodRep := by
  induction l generalizing c with
  | nil => exact hc
  | cons a t ih => exact ih (c.push a) (c.push_goodRep a hc)

theorem CompactVec.goodRep_is_inline (c : CompactVec T N)
    (hc : c.goodRep) : c.is_inline = decide (c.len ≤ N) := by
  obtain ⟨inl, heap⟩ := c
  cases heap with
  | none =>
    simp only [CompactVec.goodRep] at hc
    simp [CompactVec.is_inline, CompactVec.len, hc]
  | some hv =>
    simp only [CompactVec.goodRep] at hc
    simp only [CompactVec.is_inline, CompactVec.len, Option.isNone_some]
    rw [decide_eq_false (show ¬ hv.data.length ≤ N by omega)]

theorem SmallString.run_goodRep {N : Nat} (ops : List StrOp)
    (s : SmallString N) (hs : s.inner.goodRep) :
    ((s.run ops)).inner.goodRep := by
  induction ops generalizing s with
  | nil => exact hs
  | cons op ops ih =>
    cases op with
    | pushChar c =>
      exact ih (s.push c) (CompactVec.extend_goodRep _ _ hs)
    | pushStr t =>
      exact ih (s.push_str t) (CompactVec.extend_goodRep _ _ hs)

theorem SmallString.run_as_str {N : Nat} (ops : List StrOp)
    (s : SmallString N) :
    (s.run ops).as_str = s.as_str ++ (ops.map StrOp.bytes).flatten := by
  induction ops generalizing s with
  | nil => simp [SmallString.run]
  | cons op ops ih =>
    cases op with
    | pushChar c =>
      show ((s.push c).run ops).as_str = _
      rw [ih]
      simp [SmallString.push, SmallString.push_str, SmallString.as_str,
        StrOp.bytes]
    | pushStr t =>
      show ((s.push_str t).run ops).as_str = _
      rw [ih]
      simp [SmallString.push_str, SmallString.as_str, StrOp.bytes]

/-- Claim C9: for every SmallString<N> created by new() and every finite
sequence of push(char) / push_str(slice) calls, as_str() equals the
concatenation, in call order, of the UTF-8 encodings of the pushed
characters and slices (each call forwards those bytes to the inner
CompactVec extend), and is_inline() is true exactly when the total byte
length is within N (with only pushes, the length never decreases, so
this is equivalent to never having exceeded N). -/
theorem smallString_push_spec (N : Nat) (ops : List StrOp) :
    ((SmallString.new (N := N)).run ops).as_str
        = (ops.map StrOp.bytes).flatten ∧
      ((SmallString.new (N := N)).run ops).is_inline
        = decide ((ops.map StrOp.bytes).flatten.length ≤ N) := by
  have hgood : ((SmallString.new (N := N)).run ops).inner.goodRep :=
    SmallString.run_goodRep ops SmallString.new
      (by simp [SmallString.new, CompactVec.new, CompactVec.goodRep])
  have hstr := SmallString.run_as_str ops (SmallString.new (N := N))
  have hnew : (SmallString.new (N := N)).as_str = [] := rfl
  rw [hnew, List.nil_append] at hstr
  refine ⟨hstr, ?_⟩
  rw [show ((SmallString.new (N := N)).run ops).is_inline
      = ((SmallString.new (N := N)).run ops).inner.is_inline from rfl]
  rw [CompactVec.goodRep_is_inline _ hgood, CompactVec.len_eq]
  rw [show ((SmallString.new (N := N)).run ops).inner.as_slice
      = ((SmallString.new (N := N)).run ops).as_str from rfl]
  rw [hstr]

end Moos
